import Mathlib

/-!
Verification development for the ARCHIVE document-routing program.

The Python sources are shallowly embedded: pure string manipulation
(`tools/util.py`, `archive_cli.py`) becomes Lean functions on `String` /
`List Char`; the response-normalization and destination-resolution logic of
`archive_cli.route` becomes functions over an explicit model of the parsed
JSON response; the I/O of `tools/rclone_io.py` and `tools/text_read.py`
becomes functions of an explicit environment record (cache state, remote
listing, extractor oracles).
-/

namespace Archive

/-- Python `\s` on the ASCII range (the only characters reaching the regexes
here, since `unidecode` transliterates to ASCII first): space, tab, newline,
carriage return, form feed, vertical tab. -/
def isPyWs (c : Char) : Bool :=
  c == ' ' || c == '\t' || c == '\n' || c == '\r' || c == '\x0c' || c == '\x0b'

/-- Python `\w` on the ASCII range: letters, digits and underscore. -/
def isWordCh (c : Char) : Bool :=
  ('a' ≤ c && c ≤ 'z') || ('A' ≤ c && c ≤ 'Z') || ('0' ≤ c && c ≤ '9') || c == '_'

/-- ASCII digit test, as used by Python `int(str)` parsing. -/
def isDigitCh (c : Char) : Bool :=
  '0' ≤ c && c ≤ '9'

/-- The `unidecode` transliteration (external library used by
`tools/util.py`), restricted to the characters exercised in this
development: ASCII characters map to themselves; the em dash U+2014 maps to
`"--"`, the en dash U+2013 to `"-"`, and a few accented letters to their
base letter, exactly as the library does. Characters outside this table do
not occur in any input considered here. -/
def unidecodeChar (c : Char) : String :=
  if c.toNat < 128 then String.singleton c
  else if c == '—' then "--"
  else if c == '–' then "-"
  else if c == 'é' then "e"
  else if c == 'è' then "e"
  else if c == 'à' then "a"
  else if c == 'ü' then "u"
  else if c == 'ö' then "o"
  else if c == 'ñ' then "n"
  else ""

/-- `unidecode` applied to a whole string: concatenation of the per-character
transliterations. -/
def unidecodeStr (s : String) : String :=
  String.join (s.data.map unidecodeChar)

/-- Python `str.strip()` (no argument): remove leading and trailing
whitespace. -/
def pyStripWs (l : List Char) : List Char :=
  ((l.dropWhile isPyWs).reverse.dropWhile isPyWs).reverse

/-- ASCII lowercasing, matching Python `str.lower()` on the ASCII strings
that reach it here. -/
def lowerCh (c : Char) : Char :=
  if 'A' ≤ c && c ≤ 'Z' then Char.ofNat (c.toNat + 32) else c

/-- Characters kept by `re.sub(r"[^\w\s.-]", "", text)` in `slugify`:
word characters, whitespace, `'.'` and `'-'`. -/
def keepSlugCh (c : Char) : Bool :=
  isWordCh c || isPyWs c || c == '.' || c == '-'

/-- Helper for `re.sub(r"[\s]+", "_", text)`: replace every maximal run of
whitespace by a single underscore. The flag records whether the previous
character was whitespace. -/
def collapseWsAux : Bool → List Char → List Char
  | _, [] => []
  | prevWs, c :: rest =>
    if isPyWs c then
      if prevWs then collapseWsAux true rest
      else '_' :: collapseWsAux true rest
    else c :: collapseWsAux false rest

/-- Python `str.strip("_")` on the trailing side: remove the longest suffix
of underscores. -/
def dropTrailUS : List Char → List Char
  | [] => []
  | c :: rest =>
    match dropTrailUS rest with
    | [] => if c == '_' then [] else [c]
    | r => c :: r

/-- Python `str.strip("_")`: remove leading and trailing underscores. -/
def stripUS (l : List Char) : List Char :=
  dropTrailUS (l.dropWhile (· == '_'))

/-- Embedding of `tools/util.py:slugify`:

```
if not text: return ""
text = unidecode(text)
text = re.sub(r"[^\w\s.-]", "", text).strip().lower()
text = re.sub(r"[\s]+", "_", text)
return text[:maxlen].strip("_")
```
-/
def slugify (text : String) (maxlen : Nat := 80) : String :=
  if text = "" then ""
  else
    let t1 := (unidecodeStr text).data
    let t2 := (pyStripWs (t1.filter keepSlugCh)).map lowerCh
    let t3 := collapseWsAux false t2
    ⟨stripUS (t3.take maxlen)⟩

/-- Index of the last `'.'` in a character list, if any. -/
def lastDotIdx : List Char → Option Nat
  | [] => none
  | c :: rest =>
    match lastDotIdx rest with
    | some i => some (i + 1)
    | none => if c == '.' then some 0 else none

/-- Embedding of `os.path.splitext` on a bare file name (no directory
separators, which is what `archive_cli.py` passes): split at the last dot,
unless every character before that dot is itself a dot (leading-dot names
like `".bashrc"` or `"..a"` have no extension). -/
def splitext (name : String) : String × String :=
  match lastDotIdx name.data with
  | none => (name, "")
  | some d =>
    if (name.data.take d).any (fun c => c != '.') then
      (⟨name.data.take d⟩, ⟨name.data.drop d⟩)
    else (name, "")

/-- Python truthiness of an optional string: `None` and `""` are falsy. -/
def pyTruthy (v : Option String) : Bool :=
  match v with
  | some s => s != ""
  | none => false

/-- Python `a or b` on optional strings: `a` if truthy, else `b`. -/
def pyOrOptStr (a b : Option String) : Option String :=
  if pyTruthy a then a else b

/-- Python `v or dflt` where `v` is an optional string and `dflt` a string:
the string if truthy, else the default. -/
def pyOrStr (v : Option String) (dflt : String) : String :=
  match v with
  | some s => if s = "" then dflt else s
  | none => dflt

/-- The classification object of the reasoning response, as read by
`smart_filename` via `inferred.get(...)`. A field is `none` when the key is
missing or holds JSON `null` (Python `dict.get` returns `None` in the first
case and the code only ever combines these fields with `or`, which treats
`None` and values uniformly by truthiness). The response schema makes these
fields strings. -/
structure Inferred where
  type_ : Option String
  vendor : Option String
  subject : Option String
deriving Repr, DecidableEq

/-- Python `str.replace("__", "_")`: replace non-overlapping occurrences of
a doubled underscore, scanning left to right, each occurrence replaced
once (a run of three underscores therefore leaves a doubled one). -/
def replaceDD : List Char → List Char
  | [] => []
  | [c] => [c]
  | a :: b :: rest =>
    if a == '_' && b == '_' then '_' :: replaceDD rest
    else a :: replaceDD (b :: rest)

/-- The raw filename assembled by `archive_cli.smart_filename` before its
final `replace("__", "_").strip("_")`:

```
stem, ext = os.path.splitext(orig_name)
doc_type = inferred.get("type") or "doc"
vendor_or_subject = inferred.get("vendor") or inferred.get("subject") or ""
fn = f"{date_str}_{slugify(doc_type)}_{slugify(vendor_or_subject)}_{slugify(stem)}{ext.lower()}"
```
-/
def rawSmartName (inferred : Inferred) (orig_name date_str : String) : String :=
  let se := splitext orig_name
  let doc_type := pyOrStr inferred.type_ "doc"
  let vendor_or_subject := pyOrStr inferred.vendor (pyOrStr inferred.subject "")
  date_str ++ "_" ++ slugify doc_type ++ "_" ++ slugify vendor_or_subject ++ "_"
    ++ slugify se.1 ++ ⟨se.2.data.map lowerCh⟩

/-- Embedding of `archive_cli.smart_filename`: the raw assembled name
followed by `fn.replace("__", "_").strip("_")`. -/
def smart_filename (inferred : Inferred) (orig_name date_str : String) : String :=
  ⟨stripUS (replaceDD (rawSmartName inferred orig_name date_str).data)⟩

/-- JSON values as produced by Python `json.loads`, as far as the score
fields of the reasoning response are concerned. Integer-valued JSON numbers
parse to Python `int` (`jint`); other finite numbers parse to `float`,
represented exactly by a rational (`jnum`, every IEEE double is a
rational); `jnonfinite` stands for the `Infinity`/`-Infinity`/`NaN`
literals Python's `json` module also accepts, on which `int()` raises. -/
inductive Json where
  | jnull
  | jbool (b : Bool)
  | jint (n : Int)
  | jnum (q : ℚ)
  | jnonfinite
  | jstr (s : String)
  | jarr (elems : List Json)
  | jobj (fields : List (String × Json))
deriving Repr

/-- Digits-with-underscores tail of a Python integer literal: after the
first digit, underscores may appear only singly and only between digits. -/
def digitsTailOK : List Char → Bool
  | [] => true
  | '_' :: rest =>
    match rest with
    | [] => false
    | d :: r => isDigitCh d && digitsTailOK r
  | c :: rest => isDigitCh c && digitsTailOK rest

/-- Body of a Python integer literal: a digit followed by a valid tail. -/
def digitsOK : List Char → Bool
  | [] => false
  | c :: rest => isDigitCh c && digitsTailOK rest

/-- Numeric value of a digit string, ignoring grouping underscores. -/
def digitsVal (l : List Char) : Nat :=
  l.foldl (fun acc c => if c == '_' then acc else acc * 10 + (c.toNat - 48)) 0

/-- Python `int(s)` on a string: strip surrounding whitespace, then an
optional sign followed by digits (with legal grouping underscores);
anything else raises `ValueError` (`none`). -/
def pyIntOfStr (s : String) : Option Int :=
  match pyStripWs s.data with
  | [] => none
  | c :: rest =>
    let sd : Int × List Char :=
      if c == '+' then (1, rest)
      else if c == '-' then (-1, rest)
      else (1, c :: rest)
    if digitsOK sd.2 then some (sd.1 * digitsVal sd.2) else none

/-- Truncation toward zero, the behaviour of Python `int()` on a float. -/
def pyTruncRat (q : ℚ) : Int :=
  if 0 ≤ q then ⌊q⌋ else ⌈q⌉

/-- Python `int(v)` on a decoded JSON value: identity on ints, `True`/`False`
to 1/0, truncation on finite floats, literal parsing on strings, and an
exception (`none`) on `None`, lists, dicts and non-finite floats. -/
def pyInt : Json → Option Int
  | .jint n => some n
  | .jbool b => some (if b then 1 else 0)
  | .jnum q => some (pyTruncRat q)
  | .jstr s => pyIntOfStr s
  | .jnull => none
  | .jnonfinite => none
  | .jarr _ => none
  | .jobj _ => none

/-- A candidate object of the reasoning response. Each field is `none` when
the corresponding key is absent from the JSON object. -/
structure Candidate where
  path : Option String
  score : Option Json
  why : Option String
deriving Repr

/-- The score-coercion of `archive_cli.route`:

```
try: c["score"] = int(c.get("score", 0))
except Exception: c["score"] = 0
```

A missing key yields `int(0) = 0`; a present value goes through `pyInt`,
with the `except` clause turning any failure into 0. -/
def coerceScore : Option Json → Int
  | none => 0
  | some v => (pyInt v).getD 0

/-- One iteration of the score-coercion loop: the candidate with its
`score` key overwritten by the coerced integer. -/
def normalizeCandidate (c : Candidate) : Candidate :=
  { c with score := some (.jint (coerceScore c.score)) }

/-- The sort key `lambda x: x.get("score", 0)` of `archive_cli.route`. The
sort runs after the coercion loop, so every score it sees is an `int`; the
fallback 0 mirrors the `.get` default. -/
def scoreKey (c : Candidate) : Int :=
  match c.score with
  | some (.jint n) => n
  | _ => 0

/-- Insertion step of a stable descending sort by `scoreKey`: the inserted
element precedes every element whose key is not strictly greater, so an
element coming earlier in the original list precedes later elements of
equal key. -/
def insertDesc (x : Candidate) : List Candidate → List Candidate
  | [] => [x]
  | y :: t => if scoreKey x < scoreKey y then y :: insertDesc x t else x :: y :: t

/-- Embedding of `sorted(candidates, key=lambda x: x.get("score", 0),
reverse=True)`. Python's sort is stable also under `reverse=True`; a stable
descending sort is extensionally unique, so this insertion sort is a
faithful embedding of it. -/
def pySortDesc (l : List Candidate) : List Candidate :=
  l.foldr insertDesc []

/-- The parsed reasoning-service response, before normalization. `none`
models a missing key or JSON `null` (also an empty dict for `inferred` and
an empty list for `candidates`: Python's `x or default` maps those falsy
values to the default, which coincides with `getD` below). -/
structure LlmResult where
  inferred : Option Inferred
  candidates : Option (List Candidate)
  proposed_filename : Option String
  chosen_folder : Option String
deriving Repr

/-- The normalized `resp` dictionary of `archive_cli.route`. -/
structure Resp where
  inferred : Inferred
  candidates : List Candidate
  proposed_filename : Option String
  chosen_folder : Option String
deriving Repr

/-- Embedding of the `resp = {...}` normalization block of
`archive_cli.route` lines 113–118: defaults for `inferred` and
`candidates`, plain passthrough of `proposed_filename` and
`chosen_folder`. The `auto` flag does not occur in this block. -/
def normalizeResult (r : LlmResult) : Resp :=
  { inferred := r.inferred.getD ⟨none, none, none⟩
    candidates := r.candidates.getD []
    proposed_filename := r.proposed_filename
    chosen_folder := r.chosen_folder }

/-- Full response normalization of `archive_cli.route` lines 113–127: the
block above followed by the score-coercion loop and the stable descending
sort. -/
def routeNormalize (r : LlmResult) : Resp :=
  let resp := normalizeResult r
  { resp with candidates := pySortDesc (resp.candidates.map normalizeCandidate) }

/-- Outcome of the destination-resolution block of `archive_cli.route`
lines 156–162. `exitOne` is `typer.Exit(1)` after "No candidate folder
available."; `keyErr` is the `KeyError` raised by `candidates[0]["path"]`
when the first candidate lacks a `path` key. -/
inductive DestOutcome where
  | dest (folder : String)
  | exitOne
  | keyErr
deriving Repr, DecidableEq

/-- Embedding of:

```
dest_folder = chosen or resp["chosen_folder"]
if not dest_folder:
    dest_folder = (resp["candidates"][0]["path"] if resp["candidates"] else None)
if not dest_folder:
    typer.secho("No candidate folder available.", ...)
    raise typer.Exit(1)
```
-/
def decideDestination (chosen respChosen : Option String) (cands : List Candidate) :
    DestOutcome :=
  let d1 := pyOrOptStr chosen respChosen
  let d2 : Except Unit (Option String) :=
    if pyTruthy d1 then .ok d1
    else
      match cands with
      | [] => .ok none
      | c :: _ =>
        match c.path with
        | some p => .ok (some p)
        | none => .error ()
  match d2 with
  | .error _ => .keyErr
  | .ok none => .exitOne
  | .ok (some p) => if p == "" then .exitOne else .dest p

/-- The folder list actually placed in the reasoning request
(`archive_cli.route` line 105): `folders[:500]`. -/
def payloadFolders (folders : List String) : List String :=
  folders.take 500

/-- One record of the `rclone lsjson` output (or of the cached copy of it):
a JSON object whose `Path` and `Name` keys, when present, hold strings. -/
structure RemoteObj where
  path : Option String
  name : Option String
deriving Repr, DecidableEq

/-- Insertion into a strictly ascending list, dropping duplicates. -/
def insSorted (x : String) : List String → List String
  | [] => [x]
  | y :: t =>
    if x < y then x :: y :: t
    else if x = y then y :: t
    else y :: insSorted x t

/-- Embedding of Python `sorted(set(paths))` for strings: the strictly
ascending (hence duplicate-free) enumeration of the distinct elements, in
code-point lexicographic order — which is exactly what `sorted` on a `set`
of `str` returns, whatever order the set iterates in. -/
def sortedSet (l : List String) : List String :=
  l.foldr insSorted []

/-- The path-extraction loop of `tools/rclone_io.list_folders`:

```
for obj in data:
    rel = obj.get("Path") or obj.get("Name")
    if rel:
        paths.append(rel)
return sorted(set(paths))
```
-/
def pathsOf (data : List RemoteObj) : List String :=
  sortedSet (data.filterMap fun o =>
    let rel := pyOrOptStr o.path o.name
    if pyTruthy rel then rel else none)

/-- The environment `list_folders` runs in: whether the cache file exists,
its parsed contents and modification time, the current wall-clock time, and
the parsed output the recursive `rclone lsjson --dirs-only --recursive`
enumeration would produce now. Times are rationals standing for the float
seconds of `time.time()` / `st_mtime`. -/
structure RcState where
  cacheExists : Bool
  cacheMtime : ℚ
  now : ℚ
  cacheData : List RemoteObj
  remote : List RemoteObj
deriving Repr, DecidableEq

/-- Result of a `list_folders` call: the returned folder list, the cache
file contents after the call, and whether the remote tree was re-enumerated
(and the cache file overwritten). -/
structure ListResult where
  folders : List String
  cacheAfter : List RemoteObj
  refreshed : Bool
deriving Repr, DecidableEq

/-- The cache TTL of `tools/rclone_io.py`: `CACHE_TTL = 600` seconds. -/
def CACHE_TTL : ℚ := 600

/-- Embedding of `tools/rclone_io.list_folders`:

```
if use_cache and CACHE.exists() and (time.time() - CACHE.stat().st_mtime) < CACHE_TTL:
    data = json.loads(CACHE.read_text())
else:
    out = _run(["rclone", "lsjson", ..., "--dirs-only", "--recursive"])
    data = json.loads(out) if out.strip() else []
    CACHE.parent.mkdir(parents=True, exist_ok=True)
    CACHE.write_text(json.dumps(data))
...
return sorted(set(paths))
```
-/
def list_folders (st : RcState) (use_cache : Bool := true) : ListResult :=
  if use_cache && st.cacheExists && decide (st.now - st.cacheMtime < CACHE_TTL) then
    { folders := pathsOf st.cacheData, cacheAfter := st.cacheData, refreshed := false }
  else
    { folders := pathsOf st.remote, cacheAfter := st.remote, refreshed := true }

/-- POSIX basename of a path string: the part after the last `'/'`. -/
def baseName (path : String) : String :=
  ⟨(path.data.reverse.takeWhile (· != '/')).reverse⟩

/-- Embedding of `pathlib.Path(...).suffix`: the part of the final
component from its last dot on, provided that dot is neither the first nor
the last character of the name; otherwise the empty string. -/
def pathSuffix (path : String) : String :=
  let name := (baseName path).data
  match lastDotIdx name with
  | none => ""
  | some d => if 0 < d && d + 1 < name.length then ⟨name.drop d⟩ else ""

/-- Python slicing `s[:n]` for an `int` bound `n`: for non-negative `n` the
first `min n (len s)` characters, for negative `n` everything up to
`max 0 (len s + n)`. -/
def pySliceTo (s : String) (n : Int) : String :=
  if n < 0 then ⟨s.data.take (s.data.length - (-n).toNat)⟩
  else ⟨s.data.take n.toNat⟩

/-- The extraction oracles `tools/text_read.py` delegates to, modelled as
an environment: whether a path exists, what `_pdf_text_pymupdf` returns,
what `_ocr_first_pages_with_pymupdf` returns for a page budget (that helper
catches its own exceptions and returns a string), what
`pytesseract.image_to_string` returns, and what `Path.read_text` returns
(`none` standing for a raised exception, turned into `""` by the
`except` clause). -/
structure Extractors where
  existsF : String → Bool
  pdfText : String → String
  pdfOcr : String → Nat → String
  imageOcr : String → String
  readTextF : String → Option String

/-- The image extensions of `tools/text_read.read_text_any`. -/
def imageExts : List String :=
  [".png", ".jpg", ".jpeg", ".tif", ".tiff", ".bmp", ".webp"]

/-- Embedding of `tools/text_read.read_text_any`:

```
if not p.exists(): raise FileNotFoundError(path)
ext = p.suffix.lower()
if ext == ".pdf":
    text = _pdf_text_pymupdf(str(p))
    if len(text) < 50:
        text = _ocr_first_pages_with_pymupdf(str(p), pages=ocr_pages)
elif ext in [".png", ".jpg", ".jpeg", ".tif", ".tiff", ".bmp", ".webp"]:
    text = pytesseract.image_to_string(Image.open(p))
else:
    try: text = p.read_text(encoding="utf-8", errors="ignore")
    except Exception: text = ""
return (text or "")[:max_chars]
```

The `error` outcome is the `FileNotFoundError`. `text or ""` is the
identity on strings (`"" or ""` is `""`). -/
def read_text_any (E : Extractors) (path : String) (ocr_pages : Nat := 1)
    (max_chars : Int := 4000) : Except String String :=
  if E.existsF path = false then .error path
  else
    let ext := ⟨(pathSuffix path).data.map lowerCh⟩
    let text :=
      if ext = ".pdf" then
        let t := E.pdfText path
        if t.length < 50 then E.pdfOcr path ocr_pages else t
      else if ext ∈ imageExts then E.imageOcr path
      else (E.readTextF path).getD ""
    .ok (pySliceTo text max_chars)

/-- Detects a doubled underscore: some two adjacent characters are both
`'_'`. -/
def hasDD : List Char → Bool
  | a :: b :: rest => (a == '_' && b == '_') || hasDD (b :: rest)
  | _ => false

/-- Detects a run of three or more underscores: some three adjacent
characters are all `'_'`. -/
def hasTriple : List Char → Bool
  | a :: b :: c :: rest => (a == '_' && b == '_' && c == '_') || hasTriple (b :: c :: rest)
  | _ => false

/-- Whether a string starts with an underscore. -/
def startsUS (s : String) : Bool :=
  s.data.head? == some '_'

/-- Whether a string ends with an underscore. -/
def endsUS (s : String) : Bool :=
  s.data.getLast? == some '_'

/-- A concrete extraction environment used to instantiate the truncation
theorem: every path exists and each oracle returns a fixed string. -/
def sampleExtractors : Extractors where
  existsF := fun _ => true
  pdfText := fun _ => "PDFTEXT"
  pdfOcr := fun _ _ => "OCRTEXT"
  imageOcr := fun _ => "IMGTEXT"
  readTextF := fun _ => some "hello world"

/-- C1: the claim says that when `auto` is false the normalized
`chosen_folder` is null regardless of what the reasoning response supplied.
The normalization block of `archive_cli.route` (lines 112–127) does not
mention `auto` at all and passes `chosen_folder` straight through, so a
response carrying `"Misc"` keeps it even in an `auto=false` run; the null
invariant is only requested from the model in the prompt ("If auto=false,
chosen_folder must be null"), not enforced by the code. This theorem
evaluates the normalization at that failing input. -/
theorem chosen_folder_not_forced_null :
    (routeNormalize
      { inferred := none, candidates := none, proposed_filename := none,
        chosen_folder := some "Misc" }).chosen_folder = some "Misc" := rfl

/-- C2: destination resolution tries the caller's explicit folder, then the
Advisor's `chosen_folder`, then the first candidate's path; if all three
are absent (Python-falsy: missing or empty) the run exits with code 1.
Stated on the embedding of `archive_cli.route` lines 156–162. -/
theorem destination_resolution_order (chosen respChosen : Option String)
    (cands : List Candidate) :
    (∀ s : String, chosen = some s → s ≠ "" →
      decideDestination chosen respChosen cands = .dest s) ∧
    (pyTruthy chosen = false → ∀ s : String, respChosen = some s → s ≠ "" →
      decideDestination chosen respChosen cands = .dest s) ∧
    (pyTruthy chosen = false → pyTruthy respChosen = false →
      ∀ c cs, cands = c :: cs → ∀ p : String, c.path = some p → p ≠ "" →
        decideDestination chosen respChosen cands = .dest p) ∧
    (pyTruthy chosen = false → pyTruthy respChosen = false → cands = [] →
      decideDestination chosen respChosen cands = .exitOne) := by
  refine ⟨?_, ?_, ?_, ?_⟩
  · rintro s rfl hs
    have ht : pyTruthy (some s) = true := by simp [pyTruthy, hs]
    simp [decideDestination, pyOrOptStr, ht, hs]
  · intro hc s hr hs
    subst hr
    have ht : pyTruthy (some s) = true := by simp [pyTruthy, hs]
    simp [decideDestination, pyOrOptStr, hc, ht, hs]
  · intro hc hr c cs hcand p hp hps
    subst hcand
    have hd : pyOrOptStr chosen respChosen = respChosen := by simp [pyOrOptStr, hc]
    simp [decideDestination, hd, hr, hp, hps]
  · intro hc hr hcand
    subst hcand
    have hd : pyOrOptStr chosen respChosen = respChosen := by simp [pyOrOptStr, hc]
    simp [decideDestination, hd, hr]

/-- Concrete instances of the destination-resolution theorem: an explicit
folder wins, then the Advisor's choice, then the top candidate, and an
empty field set exits with code 1. -/
theorem destination_resolution_order_spot :
    decideDestination (some "Explicit") (some "Advisor") [⟨some "Top", none, none⟩]
        = .dest "Explicit" ∧
    decideDestination none (some "Advisor") [⟨some "Top", none, none⟩]
        = .dest "Advisor" ∧
    decideDestination none none [⟨some "Top", none, none⟩] = .dest "Top" ∧
    decideDestination none none [] = .exitOne :=
  ⟨(destination_resolution_order (some "Explicit") (some "Advisor")
      [⟨some "Top", none, none⟩]).1 "Explicit" rfl (by decide),
   (destination_resolution_order none (some "Advisor")
      [⟨some "Top", none, none⟩]).2.1 rfl "Advisor" rfl (by decide),
   (destination_resolution_order none none
      [⟨some "Top", none, none⟩]).2.2.1 rfl rfl _ _ rfl "Top" rfl (by decide),
   (destination_resolution_order none none []).2.2.2 rfl rfl rfl⟩

/-- C3: the claim (and the docstring of `tools/util.py:slugify`) says the
example input slugifies to `"logitech_international_s_a_invoice_12345"`,
but the code's character class `[^\w\s.-]` keeps `'.'` and `'-'`, so the
dots of `"S.A."` and the transliterated em dash survive: the code returns
`"logitech_international_s.a._--_invoice_12345"`, contradicting its own
docstring. -/
theorem slugify_docstring_example :
    slugify "Logitech International S.A. — Invoice #12345"
        = "logitech_international_s.a._--_invoice_12345" ∧
    slugify "Logitech International S.A. — Invoice #12345"
        ≠ "logitech_international_s_a_invoice_12345" := by
  exact ⟨by rfl, by decide⟩

/-- C4: score normalization always produces an integer score; a missing
score key or a value `int()` cannot convert becomes 0; and the coercion is
a total function — the `except Exception` clause means no score value can
make it raise. -/
theorem score_coercion_total (c : Candidate) :
    (∃ n : Int, (normalizeCandidate c).score = some (Json.jint n)) ∧
    (c.score = none → (normalizeCandidate c).score = some (Json.jint 0)) ∧
    (∀ v : Json, c.score = some v → pyInt v = none →
      (normalizeCandidate c).score = some (Json.jint 0)) := by
  refine ⟨⟨coerceScore c.score, rfl⟩, ?_, ?_⟩
  · intro h
    simp [normalizeCandidate, coerceScore, h]
  · intro v hv hn
    simp [normalizeCandidate, coerceScore, hv, hn]

/-- Concrete instances of score coercion: a non-numeric string score and a
missing score key both coerce to 0. -/
theorem score_coercion_total_spot :
    (normalizeCandidate ⟨some "A", some (Json.jstr "n/a"), none⟩).score
        = some (Json.jint 0) ∧
    (normalizeCandidate ⟨some "B", none, none⟩).score = some (Json.jint 0) :=
  ⟨(score_coercion_total _).2.2 (Json.jstr "n/a") rfl rfl,
   (score_coercion_total _).2.1 rfl⟩

/-- Membership in an insertion step: every element of `insertDesc x l` is
`x` or an element of `l`. -/
lemma mem_insertDesc {x a : Candidate} {l : List Candidate}
    (h : a ∈ insertDesc x l) : a = x ∨ a ∈ l := by
  induction l with
  | nil =>
    simp only [insertDesc, List.mem_singleton] at h
    exact Or.inl h
  | cons y t IH =>
    by_cases hlt : scoreKey x < scoreKey y
    · simp only [insertDesc, if_pos hlt, List.mem_cons] at h
      rcases h with h | h
      · exact Or.inr (by simp [h])
      · rcases IH h with h1 | h1
        · exact Or.inl h1
        · exact Or.inr (by simp [h1])
    · simp only [insertDesc, if_neg hlt, List.mem_cons] at h
      rcases h with h | h
      · exact Or.inl h
      · exact Or.inr (by simpa using h)

/-- Inserting into a descending-by-score list keeps it descending. -/
lemma pairwise_insertDesc (x : Candidate) {l : List Candidate}
    (h : List.Pairwise (fun a b => scoreKey b ≤ scoreKey a) l) :
    List.Pairwise (fun a b => scoreKey b ≤ scoreKey a) (insertDesc x l) := by
  induction l with
  | nil => simp [insertDesc]
  | cons y t IH =>
    rw [List.pairwise_cons] at h
    obtain ⟨hy, ht⟩ := h
    by_cases hlt : scoreKey x < scoreKey y
    · simp only [insertDesc, if_pos hlt]
      rw [List.pairwise_cons]
      refine ⟨fun b hb => ?_, IH ht⟩
      rcases mem_insertDesc hb with rfl | hb
      · exact le_of_lt hlt
      · exact hy b hb
    · simp only [insertDesc, if_neg hlt]
      rw [List.pairwise_cons]
      have hyx : scoreKey y ≤ scoreKey x := not_lt.mp hlt
      refine ⟨fun b hb => ?_, by rw [List.pairwise_cons]; exact ⟨hy, ht⟩⟩
      rcases List.mem_cons.mp hb with rfl | hb
      · exact hyx
      · exact le_trans (hy b hb) hyx

/-- Stability of the insertion step: restricted to candidates of any one
score, inserting `x` is the same as prepending it. -/
lemma filter_insertDesc (s : Int) (x : Candidate) (l : List Candidate) :
    (insertDesc x l).filter (fun c => scoreKey c == s)
      = (x :: l).filter (fun c => scoreKey c == s) := by
  induction l with
  | nil => rfl
  | cons y t IH =>
    by_cases hlt : scoreKey x < scoreKey y
    · simp only [insertDesc, if_pos hlt]
      cases hy : (scoreKey y == s) with
      | true =>
        have hys : scoreKey y = s := by simpa using hy
        have hx : (scoreKey x == s) = false := by
          have : scoreKey x ≠ s := by omega
          simpa using this
        simp [List.filter_cons, hy, hx, IH]
      | false =>
        simp [List.filter_cons, hy, IH]
    · simp [insertDesc, if_neg hlt]

/-- The full sort is descending by score. -/
lemma pairwise_pySortDesc (l : List Candidate) :
    List.Pairwise (fun a b => scoreKey b ≤ scoreKey a) (pySortDesc l) := by
  induction l with
  | nil => simp [pySortDesc]
  | cons x t IH => exact pairwise_insertDesc x IH

/-- Stability of the full sort: restricted to candidates of any one score,
sorting is the identity. -/
lemma filter_pySortDesc (s : Int) (l : List Candidate) :
    (pySortDesc l).filter (fun c => scoreKey c == s)
      = l.filter (fun c => scoreKey c == s) := by
  induction l with
  | nil => rfl
  | cons x t IH =>
    have h1 : pySortDesc (x :: t) = insertDesc x (pySortDesc t) := rfl
    rw [h1, filter_insertDesc, List.filter_cons, List.filter_cons, IH]

/-- C5: after normalization the candidate sequence is sorted by descending
score, and stably so — among candidates of equal score the output order is
the response order (the response's candidates, score-coerced in place).
The stability statement is the standard filter form: restricting both the
output and the normalized input list to any fixed score gives identical
lists. -/
theorem candidate_sort_stable (r : LlmResult) :
    List.Pairwise (fun a b => scoreKey b ≤ scoreKey a)
      (routeNormalize r).candidates ∧
    ∀ s : Int,
      (routeNormalize r).candidates.filter (fun c => scoreKey c == s)
        = ((normalizeResult r).candidates.map normalizeCandidate).filter
            (fun c => scoreKey c == s) :=
  ⟨pairwise_pySortDesc _, fun s => filter_pySortDesc s _⟩

/-- C6: folder lists shorter than 500 are passed whole to the ranking
request; lists of 500 or more are cut to exactly their first 500 entries in
order. -/
theorem folder_cap_500 (l : List String) :
    (l.length < 500 → payloadFolders l = l) ∧
    (500 ≤ l.length → (payloadFolders l).length = 500) ∧
    ∀ i : Nat, i < 500 → (payloadFolders l)[i]? = l[i]? := by
  refine ⟨fun h => List.take_of_length_le (Nat.le_of_lt h), fun h => ?_,
    fun i hi => List.getElem?_take_of_lt hi⟩
  simp only [payloadFolders, List.length_take]
  omega

/-- Concrete instances of the folder cap: a short list is passed whole, a
501-entry list is cut to length 500, and entries below the boundary are
preserved in order. -/
theorem folder_cap_500_spot :
    payloadFolders ["A", "B"] = ["A", "B"] ∧
    (payloadFolders (List.replicate 500 "x" ++ ["y"])).length = 500 ∧
    (payloadFolders ["A", "B"])[0]? = (["A", "B"] : List String)[0]? :=
  ⟨(folder_cap_500 _).1 (by decide),
   (folder_cap_500 _).2.1 (by
     simp only [List.length_append, List.length_replicate, List.length_cons,
       List.length_nil]
     omega),
   (folder_cap_500 _).2.2 0 (by decide)⟩

@[simp]
lemma hasDD_nil : hasDD [] = false := rfl

@[simp]
lemma hasDD_one (c : Char) : hasDD [c] = false := rfl

/-- A doubled underscore in the tail would be one in the whole list. -/
lemma hasDD_cons_false {a : Char} {l : List Char} (h : hasDD (a :: l) = false) :
    hasDD l = false := by
  cases l with
  | nil => rfl
  | cons b t =>
    simp only [hasDD, Bool.or_eq_false_iff] at h
    exact h.2

/-- Prepending a character cannot create a doubled underscore unless it and
the previous head are both underscores. -/
lemma hasDD_cons_of {a : Char} {l : List Char} (h1 : hasDD l = false)
    (h2 : (a == '_') = false ∨ l.head? ≠ some '_') : hasDD (a :: l) = false := by
  cases l with
  | nil => rfl
  | cons b t =>
    simp only [hasDD, Bool.or_eq_false_iff]
    refine ⟨?_, h1⟩
    rcases h2 with h2 | h2
    · simp [h2]
    · have hb : (b == '_') = false := by
        simp only [List.head?_cons, ne_eq, Option.some.injEq] at h2
        simpa using h2
      simp [hb]

/-- A triple underscore in the tail would be one in the whole list. -/
lemma hasTriple_cons_false {a : Char} {l : List Char}
    (h : hasTriple (a :: l) = false) : hasTriple l = false := by
  cases l with
  | nil => rfl
  | cons b t =>
    cases t with
    | nil => rfl
    | cons c r =>
      simp only [hasTriple, Bool.or_eq_false_iff] at h
      exact h.2

/-- The single-pass pair replacement preserves the first character. -/
lemma replaceDD_head? : ∀ l : List Char, (replaceDD l).head? = l.head?
  | [] => rfl
  | [_] => rfl
  | a :: b :: rest => by
    by_cases h : (a == '_' && b == '_') = true
    · have ha : a = '_' := by
        have := (Bool.and_eq_true _ _).mp h
        simpa using this.1
      simp only [replaceDD, h, if_true, ha]
      split <;> simp
    · simp [replaceDD, h]

/-- If the input has no run of three underscores, the single left-to-right
pass replacing `"__"` by `"_"` leaves no doubled underscore. -/
lemma hasDD_replaceDD : ∀ l : List Char, hasTriple l = false →
    hasDD (replaceDD l) = false := by
  intro l
  induction l using replaceDD.induct with
  | case1 => intro _; rfl
  | case2 c => intro _; rfl
  | case3 a b rest hcond IH =>
    intro h
    have ha : a = '_' := by
      have := (Bool.and_eq_true _ _).mp hcond
      simpa using this.1
    have hb : b = '_' := by
      have := (Bool.and_eq_true _ _).mp hcond
      simpa using this.2
    rw [show replaceDD (a :: b :: rest) = '_' :: replaceDD rest by
      simp [replaceDD, hcond]]
    cases rest with
    | nil => rfl
    | cons c r =>
      have ht : hasTriple (c :: r) = false :=
        hasTriple_cons_false (hasTriple_cons_false h)
      have hc : (c == '_') = false := by
        subst ha hb
        simp only [hasTriple, Bool.or_eq_false_iff] at h
        simpa using h.1
      refine hasDD_cons_of (IH ht) (Or.inr ?_)
      rw [replaceDD_head?]
      simp only [List.head?_cons, ne_eq, Option.some.injEq]
      simpa using hc
  | case4 a b rest hcond IH =>
    intro h
    rw [show replaceDD (a :: b :: rest) = a :: replaceDD (b :: rest) by
      simp [replaceDD, hcond]]
    have ht : hasTriple (b :: rest) = false := hasTriple_cons_false h
    by_cases hab : (a == '_') = true
    · have hbne : (b == '_') = false := by
        cases hbv : (b == '_') with
        | false => rfl
        | true => rw [hab, hbv] at hcond; exact absurd hcond (by simp)
      refine hasDD_cons_of (IH ht) (Or.inr ?_)
      rw [replaceDD_head?]
      simp only [List.head?_cons, ne_eq, Option.some.injEq]
      simpa using hbne
    · exact hasDD_cons_of (IH ht) (Or.inl (by simpa using hab))

/-- The head surviving `dropWhile (· == '_')` is not an underscore. -/
lemma head_dropWhileUS : ∀ (l : List Char) {a : Char} {t : List Char},
    l.dropWhile (· == '_') = a :: t → (a == '_') = false := by
  intro l
  induction l with
  | nil => intro a t h; simp at h
  | cons c r IH =>
    intro a t h
    rw [List.dropWhile_cons] at h
    split at h
    · exact IH h
    · next hc =>
      injection h with h1 _
      subst h1
      simpa using hc

/-- Dropping a prefix cannot create a doubled underscore. -/
lemma hasDD_dropWhileUS {l : List Char} (h : hasDD l = false) :
    hasDD (l.dropWhile (· == '_')) = false := by
  induction l with
  | nil => exact h
  | cons a t IH =>
    rw [List.dropWhile_cons]
    split
    · exact IH (hasDD_cons_false h)
    · exact h

/-- `dropTrailUS` yields the empty list or preserves the head. -/
lemma dropTrailUS_head? : ∀ l : List Char,
    dropTrailUS l = [] ∨ (dropTrailUS l).head? = l.head? := by
  intro l
  cases l with
  | nil => exact Or.inl rfl
  | cons c t =>
    cases hd : dropTrailUS t with
    | nil =>
      by_cases hc : (c == '_') = true
      · left
        simp [dropTrailUS, hd, hc]
      · right
        simp [dropTrailUS, hd, hc]
    | cons r0 rs =>
      right
      simp [dropTrailUS, hd]

/-- Unfolding `dropTrailUS` over a cons whose tail does not strip to
empty. -/
lemma dropTrailUS_cons_of {c : Char} {t : List Char} {r0 : Char} {rs : List Char}
    (hd : dropTrailUS t = r0 :: rs) : dropTrailUS (c :: t) = c :: r0 :: rs := by
  simp only [dropTrailUS, hd]

/-- After `dropTrailUS` the last character is never an underscore. -/
lemma dropTrailUS_getLast? : ∀ l : List Char,
    (dropTrailUS l).getLast? ≠ some '_' := by
  intro l
  induction l with
  | nil => simp [dropTrailUS]
  | cons c t IH =>
    cases hd : dropTrailUS t with
    | nil =>
      by_cases hc : (c == '_') = true
      · simp [dropTrailUS, hd, hc]
      · simp only [dropTrailUS, hd, hc, if_neg]
        simp only [List.getLast?_singleton, ne_eq, Option.some.injEq]
        simpa using hc
    | cons r0 rs =>
      rw [hd] at IH
      rw [show dropTrailUS (c :: t) = c :: r0 :: rs by simp [dropTrailUS, hd]]
      rw [List.getLast?_cons_cons]
      exact IH

/-- Removing a trailing-underscore run cannot create a doubled
underscore. -/
lemma hasDD_dropTrailUS : ∀ {l : List Char}, hasDD l = false →
    hasDD (dropTrailUS l) = false := by
  intro l
  induction l with
  | nil => intro h; exact h
  | cons c t IH =>
    intro h
    cases hd : dropTrailUS t with
    | nil =>
      by_cases hc : (c == '_') = true
      · simp [dropTrailUS, hd, hc]
      · simp [dropTrailUS, hd, hc]
    | cons r0 rs =>
      have ht : hasDD t = false := hasDD_cons_false h
      have hr : hasDD (r0 :: rs) = false := by rw [← hd]; exact IH ht
      cases t with
      | nil =>
        rw [show dropTrailUS ([] : List Char) = [] from rfl] at hd
        exact absurd hd (by simp)
      | cons x xs =>
        have hh : (dropTrailUS (x :: xs)).head? = (x :: xs).head? := by
          rcases dropTrailUS_head? (x :: xs) with h0 | h0
          · rw [h0] at hd
            exact absurd hd (by simp)
          · exact h0
        rw [hd] at hh
        simp only [List.head?_cons, Option.some.injEq] at hh
        have hcx : (c == '_' && x == '_') = false := by
          simp only [hasDD, Bool.or_eq_false_iff] at h
          exact h.1
        rw [dropTrailUS_cons_of hd]
        simp only [hasDD, Bool.or_eq_false_iff]
        exact ⟨by rw [hh]; exact hcx, hr⟩

/-- The stripped string never starts with an underscore. -/
lemma startsUS_stripUS (L : List Char) : startsUS ⟨stripUS L⟩ = false := by
  have hne : (stripUS L).head? ≠ some '_' := by
    unfold stripUS
    rcases dropTrailUS_head? (L.dropWhile (· == '_')) with h0 | h0
    · rw [h0]; simp
    · rw [h0]
      cases hw : L.dropWhile (· == '_') with
      | nil => simp
      | cons b u =>
        have hb : (b == '_') = false := head_dropWhileUS L hw
        simp only [List.head?_cons, ne_eq, Option.some.injEq]
        simpa using hb
  simpa [startsUS] using hne

/-- The stripped string never ends with an underscore. -/
lemma endsUS_stripUS (L : List Char) : endsUS ⟨stripUS L⟩ = false := by
  have hne : (stripUS L).getLast? ≠ some '_' := dropTrailUS_getLast? _
  simpa [endsUS] using hne

/-- Stripping boundary underscores cannot create a doubled underscore. -/
lemma hasDD_stripUS {L : List Char} (h : hasDD L = false) :
    hasDD (stripUS L) = false :=
  hasDD_dropTrailUS (hasDD_dropWhileUS h)

/-- C7 (amended): the built filename never starts nor ends with an
underscore, and contains no doubled underscore provided the raw assembled
name has no run of three or more underscores. (The unamended claim is false:
`replace("__", "_")` is a single pass, so a run of three or more
underscores in the assembled name survives as a double — see the
counterexample theorem.) -/
theorem smart_filename_separators (inferred : Inferred) (orig_name date_str : String) :
    startsUS (smart_filename inferred orig_name date_str) = false ∧
    endsUS (smart_filename inferred orig_name date_str) = false ∧
    (hasTriple (rawSmartName inferred orig_name date_str).data = false →
      hasDD (smart_filename inferred orig_name date_str).data = false) := by
  refine ⟨startsUS_stripUS _, endsUS_stripUS _, fun h => ?_⟩
  show hasDD (stripUS (replaceDD (rawSmartName inferred orig_name date_str).data)) = false
  exact hasDD_stripUS (hasDD_replaceDD _ h)

/-- C7 counterexample: with no type/vendor/subject inferred and original
name `"a___b.pdf"`, the assembled raw name is
`"2025-01-01_doc__a___b.pdf"`; the single replacement pass turns the
triple underscore run into a double, so the final name
`"2025-01-01_doc_a__b.pdf"` still contains a doubled underscore,
contradicting the claim that the result never does. -/
theorem smart_filename_double_us_example :
    smart_filename ⟨none, none, none⟩ "a___b.pdf" "2025-01-01"
        = "2025-01-01_doc_a__b.pdf" ∧
    hasDD (smart_filename ⟨none, none, none⟩ "a___b.pdf" "2025-01-01").data = true :=
  ⟨rfl, rfl⟩

/-- Concrete instance of the amended filename property, discharging its
no-triple-run hypothesis on a well-behaved input. -/
theorem smart_filename_separators_spot :
    startsUS (smart_filename ⟨some "invoice", some "acme", none⟩
      "report.pdf" "2025-01-01") = false ∧
    hasDD (smart_filename ⟨some "invoice", some "acme", none⟩
      "report.pdf" "2025-01-01").data = false :=
  ⟨(smart_filename_separators ⟨some "invoice", some "acme", none⟩
      "report.pdf" "2025-01-01").1,
   (smart_filename_separators ⟨some "invoice", some "acme", none⟩
      "report.pdf" "2025-01-01").2.2 rfl⟩

/-- Membership in a dedup-insertion step: every element of `insSorted x l`
is `x` or an element of `l`. -/
lemma mem_insSorted {x a : String} : ∀ {l : List String},
    a ∈ insSorted x l → a = x ∨ a ∈ l := by
  intro l
  induction l with
  | nil =>
    intro h
    simp only [insSorted, List.mem_singleton] at h
    exact Or.inl h
  | cons y t IH =>
    intro h
    by_cases h1 : x < y
    · simp only [insSorted, if_pos h1, List.mem_cons] at h
      rcases h with h | h
      · exact Or.inl h
      · exact Or.inr (by simpa using h)
    · by_cases h2 : x = y
      · simp only [insSorted, if_neg h1, if_pos h2] at h
        exact Or.inr h
      · simp only [insSorted, if_neg h1, if_neg h2, List.mem_cons] at h
        rcases h with h | h
        · exact Or.inr (by simp [h])
        · rcases IH h with h3 | h3
          · exact Or.inl h3
          · exact Or.inr (by simp [h3])

/-- Dedup-insertion into a strictly ascending list stays strictly
ascending. -/
lemma sorted_insSorted (x : String) : ∀ {l : List String},
    List.Sorted (· < ·) l → List.Sorted (· < ·) (insSorted x l) := by
  intro l
  induction l with
  | nil => intro _; simp [insSorted]
  | cons y t IH =>
    intro h
    rw [List.sorted_cons] at h
    obtain ⟨hy, ht⟩ := h
    by_cases h1 : x < y
    · simp only [insSorted, if_pos h1]
      rw [List.sorted_cons]
      refine ⟨fun b hb => ?_, by rw [List.sorted_cons]; exact ⟨hy, ht⟩⟩
      rcases List.mem_cons.mp hb with rfl | hb
      · exact h1
      · exact lt_trans h1 (hy b hb)
    · by_cases h2 : x = y
      · simp only [insSorted, if_neg h1, if_pos h2]
        rw [List.sorted_cons]
        exact ⟨hy, ht⟩
      · have hyx : y < x := lt_of_le_of_ne (not_lt.mp h1) (Ne.symm h2)
        simp only [insSorted, if_neg h1, if_neg h2]
        rw [List.sorted_cons]
        refine ⟨fun b hb => ?_, IH ht⟩
        rcases mem_insSorted hb with rfl | hb
        · exact hyx
        · exact hy b hb

/-- `sortedSet` always yields a strictly ascending list. -/
lemma sorted_sortedSet (l : List String) :
    List.Sorted (· < ·) (sortedSet l) := by
  induction l with
  | nil => simp [sortedSet]
  | cons x t IH => exact sorted_insSorted x IH

/-- The folder list extracted from any listing data is strictly
ascending. -/
lemma sorted_pathsOf (data : List RemoteObj) :
    List.Sorted (· < ·) (pathsOf data) :=
  sorted_sortedSet _

/-- C10 (implicit): the folder list returned by `list_folders` is strictly
sorted ascending and duplicate-free on both the cached and the fresh
branch; consequently (third conjunct, with
`take 500 ++ drop 500 = folders`) every entry among the first 500 is
lexicographically smaller than every later entry, so the Advisor's 500-cap
keeps exactly the 500 smallest folder paths. -/
theorem folders_sorted_dedup (st : RcState) (uc : Bool) :
    List.Sorted (· < ·) (list_folders st uc).folders ∧
    (list_folders st uc).folders.Nodup ∧
    List.Pairwise (· < ·)
      ((list_folders st uc).folders.take 500
        ++ (list_folders st uc).folders.drop 500) := by
  have hs : List.Sorted (· < ·) (list_folders st uc).folders := by
    unfold list_folders
    split
    · exact sorted_pathsOf _
    · exact sorted_pathsOf _
  refine ⟨hs, hs.nodup, ?_⟩
  rw [List.take_append_drop]
  exact hs

/-- C9: with `use_cache=true` the persisted listing is read exactly when
the cache file exists and its age is strictly below the 600-second TTL;
otherwise (absent or expired cache, or `use_cache=false`) the remote tree
is re-enumerated and the cache file overwritten with the fresh listing. -/
theorem cache_ttl_semantics (st : RcState) :
    (st.cacheExists = true → st.now - st.cacheMtime < CACHE_TTL →
      list_folders st true
        = { folders := pathsOf st.cacheData, cacheAfter := st.cacheData,
            refreshed := false }) ∧
    (st.cacheExists = false ∨ CACHE_TTL ≤ st.now - st.cacheMtime →
      list_folders st true
        = { folders := pathsOf st.remote, cacheAfter := st.remote,
            refreshed := true }) ∧
    list_folders st false
      = { folders := pathsOf st.remote, cacheAfter := st.remote,
          refreshed := true } := by
  refine ⟨?_, ?_, ?_⟩
  · intro h1 h2
    simp [list_folders, h1, decide_eq_true h2]
  · intro h
    rcases h with h | h
    · simp [list_folders, h]
    · simp [list_folders, decide_eq_false (not_lt.mpr h)]
  · simp [list_folders]

/-- Concrete instances of the cache lifecycle: a 599-second-old cache is
read; at exactly 600 seconds it is expired and the remote listing is taken
and persisted; `use_cache=false` refreshes even with a warm cache. -/
theorem cache_ttl_semantics_spot :
    list_folders ⟨true, 0, 599, [⟨some "Docs/A", none⟩], [⟨some "New/B", none⟩]⟩ true
      = { folders := ["Docs/A"], cacheAfter := [⟨some "Docs/A", none⟩],
          refreshed := false } ∧
    list_folders ⟨true, 0, 600, [⟨some "Docs/A", none⟩], [⟨some "New/B", none⟩]⟩ true
      = { folders := ["New/B"], cacheAfter := [⟨some "New/B", none⟩],
          refreshed := true } ∧
    list_folders ⟨true, 0, 599, [⟨some "Docs/A", none⟩], [⟨some "New/B", none⟩]⟩ false
      = { folders := ["New/B"], cacheAfter := [⟨some "New/B", none⟩],
          refreshed := true } := by
  refine ⟨?_, ?_, ?_⟩
  · rw [(cache_ttl_semantics _).1 rfl (by norm_num [CACHE_TTL])]
    exact rfl
  · rw [(cache_ttl_semantics _).2.1 (Or.inr (by norm_num [CACHE_TTL]))]
    exact rfl
  · rw [(cache_ttl_semantics _).2.2]
    exact rfl

/-- The truncating slice `s[:n]` never yields more than `n` characters when
`n` is non-negative. -/
lemma length_pySliceTo_le {s : String} {n : Int} (hn : 0 ≤ n) :
    ((pySliceTo s n).length : Int) ≤ n := by
  unfold pySliceTo
  rw [if_neg (not_lt.mpr hn)]
  have h1 : (String.mk (s.data.take n.toNat)).length = (s.data.take n.toNat).length := rfl
  rw [h1]
  have h2 : (s.data.take n.toNat).length ≤ n.toNat := List.length_take_le _ _
  calc ((s.data.take n.toNat).length : Int) ≤ (n.toNat : Int) := by exact_mod_cast h2
    _ = n := Int.toNat_of_nonneg hn

/-- C8: for every existing input file and non-negative character budget,
text extraction succeeds and returns at most that many characters,
whichever extraction source produced the text — the final
`(text or "")[:max_chars]` truncates uniformly. -/
theorem extraction_truncation (E : Extractors) (path : String) (pages : Nat)
    (n : Int) (hex : E.existsF path = true) (hn : 0 ≤ n) :
    ∃ t : String, read_text_any E path pages n = .ok t ∧ (t.length : Int) ≤ n := by
  unfold read_text_any
  rw [if_neg (by simp [hex])]
  exact ⟨_, rfl, length_pySliceTo_le hn⟩

/-- Concrete instance of the truncation bound: a plain-text file whose
content has 11 characters is cut to the 5-character budget. -/
theorem extraction_truncation_spot :
    ∃ t : String, read_text_any sampleExtractors "notes.txt" 1 5 = .ok t ∧
      (t.length : Int) ≤ 5 :=
  extraction_truncation sampleExtractors "notes.txt" 1 5 rfl (by norm_num)

end Archive
